import Mathlib

/-!
Verification of the photometric pose-estimation core of CNN-SLAM
(the `Tracking/PoseEstimation` translation unit: `CostFunctor` and
`EstimateCameraPose`).

Modelling conventions:
* OpenCV `Mat` rows of geometry data are modelled as functions `Fin 3 → ℚ`;
  the code computes with row vectors and transposed matrices
  (`rowVec * Mᵀ`), which equals the column form `M.mulVec colVec` used here.
* `CV_32F`/`CV_64F` floating-point arithmetic is modelled by exact `ℚ`
  arithmetic for the projective geometry and by `ℝ` for the square-root
  bearing residual computations.
* `CV_8U` (unsigned byte) colour channels are modelled as `ℕ`; OpenCV `Mat`
  subtraction of two `CV_8U` matrices saturates at 0, which is exactly `ℕ`
  truncated subtraction for channel values.
* The numeric scalar type `T` that ceres instantiates `CostFunctor::operator()`
  with is modelled by the tag type `ScalarType`; the rotation produced by
  `cv::Rodrigues` from the 3-parameter state is taken as an abstract matrix
  argument `R`, and the translation as `t`.
-/

namespace CnnSlam

/-- Round to nearest integer, ties to even: the `cvRound` semantics used by
OpenCV `Mat::convertTo` when converting floating point data to `CV_32S`. -/
def cvRound (q : ℚ) : ℤ :=
  if Int.fract q < 1 / 2 then ⌊q⌋
  else if 1 / 2 < Int.fract q then ⌊q⌋ + 1
  else if Even ⌊q⌋ then ⌊q⌋ else ⌊q⌋ + 1

/-- The new camera image `imColor`: a `rows × cols` 3-channel byte image.
`pix v u` is the colour at row `v`, column `u`, i.e. `imColor.at<Vec3b>(v, u)`. -/
structure Image where
  cols : ℤ
  rows : ℤ
  pix : ℤ → ℤ → Fin 3 → ℕ

/-- One high-gradient point of the reference keyframe, one aligned index of the
parallel arrays `mHighGradPtHomo2dCoord` / `mHighGradPtDepth` /
`mHighGradPtSqrtUncertainty` / `mHighGradPtPixels`. -/
structure RefPoint where
  homo : Fin 3 → ℚ
  depth : ℚ
  sqrtUncertainty : ℚ
  pixel : Fin 3 → ℕ

/-- The data a `CostFunctor` / `EstimateCameraPose` call is bound to:
the new image, the calibration `K` with inverse `invK`, the keyframe's own
inverse calibration `mInvK`, the keyframe's `N` high-gradient points and world
pose `GetPose()`, and the pixel-noise variance constant. -/
structure Config (N : ℕ) where
  imColor : Image
  K : Matrix (Fin 3) (Fin 3) ℚ
  invK : Matrix (Fin 3) (Fin 3) ℚ
  mInvK : Matrix (Fin 3) (Fin 3) ℚ
  highGradPt : Fin N → RefPoint
  worldPose : Matrix (Fin 4) (Fin 4) ℚ
  cameraPixelNoise2 : ℚ

/-- The camera-frame 3D point of one row: the code's row computation
`(depth · homo) · invKᵀ · Rᵀ + tᵀ`, written in column form
`R · (depth · (invK · homo)) + t`. -/
def camPoint (cfg : Config N) (R : Matrix (Fin 3) (Fin 3) ℚ) (t : Fin 3 → ℚ)
    (d : ℚ) (h : Fin 3 → ℚ) : Fin 3 → ℚ :=
  R.mulVec (d • cfg.invK.mulVec h) + t

/-- Row `i` of the functor's `proj3d`: the camera point pushed through `K`
(the code's trailing `* Kt`). -/
def proj3d (cfg : Config N) (R : Matrix (Fin 3) (Fin 3) ℚ) (t : Fin 3 → ℚ)
    (i : Fin N) : Fin 3 → ℚ :=
  cfg.K.mulVec
    (camPoint cfg R t (cfg.highGradPt i).depth (cfg.highGradPt i).homo)

/-- Row `i` of the functor's `proj3dRight`: same projection with the depth
perturbed by `mHighGradPtSqrtUncertainty`. -/
def proj3dRight (cfg : Config N) (R : Matrix (Fin 3) (Fin 3) ℚ) (t : Fin 3 → ℚ)
    (i : Fin N) : Fin 3 → ℚ :=
  cfg.K.mulVec
    (camPoint cfg R t
      ((cfg.highGradPt i).depth + (cfg.highGradPt i).sqrtUncertainty)
      (cfg.highGradPt i).homo)

/-- Perspective division by the third coordinate followed by the
`convertTo(·, CV_32S)` rounding: the integer pixel `(u, v)`. -/
def pixelOfProj (p : Fin 3 → ℚ) : ℤ × ℤ :=
  (cvRound (p 0 / p 2), cvRound (p 1 / p 2))

/-- Row `i` of the functor's integer `proj2d`. -/
def proj2d (cfg : Config N) (R : Matrix (Fin 3) (Fin 3) ℚ) (t : Fin 3 → ℚ)
    (i : Fin N) : ℤ × ℤ :=
  pixelOfProj (proj3d cfg R t i)

/-- Row `i` of the functor's integer `proj2dRight`. -/
def proj2dRight (cfg : Config N) (R : Matrix (Fin 3) (Fin 3) ℚ) (t : Fin 3 → ℚ)
    (i : Fin N) : ℤ × ℤ :=
  pixelOfProj (proj3dRight cfg R t i)

/-- The functor's `valid` mask: the chain of `bitwise_and` updates starting
from `proj2d.col(0) >= 0`, i.e. both the primary and the uncertainty-shifted
pixel satisfy `0 ≤ u < cols` and `0 ≤ v < rows`. -/
def valid (cfg : Config N) (R : Matrix (Fin 3) (Fin 3) ℚ) (t : Fin 3 → ℚ)
    (i : Fin N) : Bool :=
  decide (0 ≤ (proj2d cfg R t i).1) &&
  decide ((proj2d cfg R t i).1 < cfg.imColor.cols) &&
  decide (0 ≤ (proj2d cfg R t i).2) &&
  decide ((proj2d cfg R t i).2 < cfg.imColor.rows) &&
  decide (0 ≤ (proj2dRight cfg R t i).1) &&
  decide ((proj2dRight cfg R t i).1 < cfg.imColor.cols) &&
  decide (0 ≤ (proj2dRight cfg R t i).2) &&
  decide ((proj2dRight cfg R t i).2 < cfg.imColor.rows)

/-- Row `i` of the buffer `pixels`: the loop samples `imColor` at
`(proj2d.y, proj2d.x)` only when `valid`; rows with `valid` unset are never
written and keep the uninitialised buffer contents `u i`. -/
def pixels (cfg : Config N) (R : Matrix (Fin 3) (Fin 3) ℚ) (t : Fin 3 → ℚ)
    (u : Fin N → Fin 3 → ℕ) (i : Fin N) : Fin 3 → ℕ :=
  if valid cfg R t i then
    cfg.imColor.pix (proj2d cfg R t i).2 (proj2d cfg R t i).1
  else u i

/-- Row `i` of the buffer `pixelsRight`, sampled at the uncertainty-shifted
pixel; `v i` is the uninitialised contents of unwritten rows. -/
def pixelsRight (cfg : Config N) (R : Matrix (Fin 3) (Fin 3) ℚ) (t : Fin 3 → ℚ)
    (v : Fin N → Fin 3 → ℕ) (i : Fin N) : Fin 3 → ℕ :=
  if valid cfg R t i then
    cfg.imColor.pix (proj2dRight cfg R t i).2 (proj2dRight cfg R t i).1
  else v i

/-- The per-row photometric error: `Mat` subtraction of two `CV_8U` rows
saturates negative channel differences to 0 (truncated `ℕ` subtraction),
then square, sum over the three channels and take the square root. -/
noncomputable def l2SatDiff (a b : Fin 3 → ℕ) : ℝ :=
  Real.sqrt (∑ k : Fin 3, ((a k - b k : ℕ) : ℝ) ^ 2)

/-- Row `i` of `res`: photometric error of the reference colour against the
primary sample. -/
noncomputable def res (cfg : Config N) (R : Matrix (Fin 3) (Fin 3) ℚ)
    (t : Fin 3 → ℚ) (u : Fin N → Fin 3 → ℕ) (i : Fin N) : ℝ :=
  l2SatDiff (cfg.highGradPt i).pixel (pixels cfg R t u i)

/-- Row `i` of `resRight`: photometric error against the uncertainty-shifted
sample. -/
noncomputable def resRight (cfg : Config N) (R : Matrix (Fin 3) (Fin 3) ℚ)
    (t : Fin 3 → ℚ) (v : Fin N → Fin 3 → ℕ) (i : Fin N) : ℝ :=
  l2SatDiff (cfg.highGradPt i).pixel (pixelsRight cfg R t v i)

/-- Row `i` of `var`: `sqrt((resRight - res)^2 + 2 * cameraPixelNoise2)`. -/
noncomputable def varRow (cfg : Config N) (R : Matrix (Fin 3) (Fin 3) ℚ)
    (t : Fin 3 → ℚ) (u v : Fin N → Fin 3 → ℕ) (i : Fin N) : ℝ :=
  Real.sqrt ((resRight cfg R t v i - res cfg R t u i) ^ 2 +
    2 * (cfg.cameraPixelNoise2 : ℝ))

/-- Row `i` of `regRes` before mean substitution: `res / var`. -/
noncomputable def regRes (cfg : Config N) (R : Matrix (Fin 3) (Fin 3) ℚ)
    (t : Fin 3 → ℚ) (u v : Fin N → Fin 3 → ℕ) (i : Fin N) : ℝ :=
  res cfg R t u i / varRow cfg R t u v i

/-- The set of rows whose `valid` mask is set. -/
def validSet (cfg : Config N) (R : Matrix (Fin 3) (Fin 3) ℚ)
    (t : Fin 3 → ℚ) : Finset (Fin N) :=
  Finset.univ.filter (fun i => valid cfg R t i = true)

/-- `meanRes = mean(regRes, valid)[0]`: OpenCV's masked mean sums over the
mask and multiplies by `1/nz` when the mask has `nz ≠ 0` set entries, and by
`0` when the mask is empty. -/
noncomputable def meanRes (cfg : Config N) (R : Matrix (Fin 3) (Fin 3) ℚ)
    (t : Fin 3 → ℚ) (u v : Fin N → Fin 3 → ℕ) : ℝ :=
  (∑ i ∈ validSet cfg R t, regRes cfg R t u v i) *
    (if (validSet cfg R t).card = 0 then 0 else 1 / ((validSet cfg R t).card : ℝ))

/-- Row `i` of the residual vector finally written through `memcpy`: `regRes`
with every invalid row overwritten by `meanRes`. -/
noncomputable def residualRow (cfg : Config N) (R : Matrix (Fin 3) (Fin 3) ℚ)
    (t : Fin 3 → ℚ) (u v : Fin N → Fin 3 → ℕ) (i : Fin N) : ℝ :=
  if valid cfg R t i then regRes cfg R t u v i else meanRes cfg R t u v

/-- The scalar types ceres may instantiate `CostFunctor::operator()<T>` with:
`float` (CV_32F), `double` (CV_64F), or anything else. -/
inductive ScalarType
  | f32
  | f64
  | other
deriving DecidableEq

/-- `CostFunctor::operator()`: dispatch on the scalar type, then fill the
length-`N` residual vector; `none` models `return false`, `some` models
filling `residual` and `return true`. -/
noncomputable def costFunctorEval (ty : ScalarType) (cfg : Config N)
    (R : Matrix (Fin 3) (Fin 3) ℚ) (t : Fin 3 → ℚ)
    (u v : Fin N → Fin 3 → ℕ) : Option (Fin N → ℝ) :=
  match ty with
  | .other => none
  | _ => some (fun i => residualRow cfg R t u v i)

/-- C2: a reference point `i` is classified valid iff both its primary
projected pixel and its uncertainty-shifted projected pixel lie within the
image bounds `[0, width) × [0, height)`, for every point index and every
candidate pose. -/
theorem valid_iff_both_pixels_in_bounds (N : ℕ) (cfg : Config N)
    (R : Matrix (Fin 3) (Fin 3) ℚ) (t : Fin 3 → ℚ) (i : Fin N) :
    valid cfg R t i = true ↔
      (0 ≤ (proj2d cfg R t i).1 ∧ (proj2d cfg R t i).1 < cfg.imColor.cols ∧
       0 ≤ (proj2d cfg R t i).2 ∧ (proj2d cfg R t i).2 < cfg.imColor.rows ∧
       0 ≤ (proj2dRight cfg R t i).1 ∧
       (proj2dRight cfg R t i).1 < cfg.imColor.cols ∧
       0 ≤ (proj2dRight cfg R t i).2 ∧
       (proj2dRight cfg R t i).2 < cfg.imColor.rows) := by
  simp [valid, Bool.and_eq_true, decide_eq_true_iff, and_assoc]

/-- C6: the residual evaluation dispatches on the scalar type before any
computation: any type other than `float`/`double` makes it return failure
(`false`, modelled `none`); for `float` and `double` it fills the residual
vector and returns `true` (modelled `some`). -/
theorem costFunctorEval_type_dispatch (N : ℕ) (cfg : Config N)
    (R : Matrix (Fin 3) (Fin 3) ℚ) (t : Fin 3 → ℚ)
    (u v : Fin N → Fin 3 → ℕ) :
    costFunctorEval .other cfg R t u v = none ∧
    costFunctorEval .f32 cfg R t u v =
      some (fun i => residualRow cfg R t u v i) ∧
    costFunctorEval .f64 cfg R t u v =
      some (fun i => residualRow cfg R t u v i) :=
  ⟨rfl, rfl, rfl⟩

/-- C4: whenever at least one point is valid, every invalid point's emitted
residual equals the arithmetic mean of the normalized residuals of exactly
the valid points (the residual vector itself is total on `Fin N`, hence of
fixed length `N`). -/
theorem invalid_residual_is_valid_mean (N : ℕ) (cfg : Config N)
    (R : Matrix (Fin 3) (Fin 3) ℚ) (t : Fin 3 → ℚ)
    (u v : Fin N → Fin 3 → ℕ) (i : Fin N)
    (hex : ∃ j, valid cfg R t j = true) (hi : valid cfg R t i = false) :
    residualRow cfg R t u v i =
      (∑ j ∈ validSet cfg R t, regRes cfg R t u v j) /
        ((validSet cfg R t).card : ℝ) := by
  obtain ⟨j, hj⟩ := hex
  have hmem : j ∈ validSet cfg R t := by simp [validSet, hj]
  have hcard : (validSet cfg R t).card ≠ 0 :=
    Finset.card_ne_zero_of_mem hmem
  simp [residualRow, hi, meanRes, hcard, div_eq_mul_inv, one_div]

/-- C10: when no point is valid, the evaluation still succeeds for the
supported scalar types and every emitted residual is the masked mean over an
empty mask, i.e. `0`. -/
theorem all_invalid_succeeds_with_zero (N : ℕ) (cfg : Config N)
    (R : Matrix (Fin 3) (Fin 3) ℚ) (t : Fin 3 → ℚ)
    (u v : Fin N → Fin 3 → ℕ)
    (h : ∀ i, valid cfg R t i = false) :
    costFunctorEval .f32 cfg R t u v =
      some (fun i => residualRow cfg R t u v i) ∧
    costFunctorEval .f64 cfg R t u v =
      some (fun i => residualRow cfg R t u v i) ∧
    ∀ i, residualRow cfg R t u v i = 0 := by
  refine ⟨rfl, rfl, fun i => ?_⟩
  have hempty : validSet cfg R t = ∅ := by
    apply Finset.eq_empty_of_forall_not_mem
    intro j hj
    have := h j
    simp [validSet] at hj
    simp [hj] at this
  simp [residualRow, h i, meanRes, hempty]

/-- A 4 × 4 all-black test image. -/
def imgW : Image := ⟨4, 4, fun _ _ _ => 0⟩

/-- A reference point whose primary and shifted projections (under identity
calibration and identity pose) land at pixel `(1, 1)`, inside `imgW`. -/
def ptValid : RefPoint := ⟨![1, 1, 1], 1, 0, ![3, 4, 0]⟩

/-- A reference point projecting to `u = 10`, outside `imgW`. -/
def ptInvalid : RefPoint := ⟨![10, 0, 1], 1, 0, ![0, 0, 0]⟩

/-- Test configuration with one valid and one invalid point. -/
def cfgW : Config 2 := ⟨imgW, 1, 1, 1, ![ptValid, ptInvalid], 1, 2⟩

/-- Test configuration in which every (single) point is invalid. -/
def cfgAllInv : Config 1 := ⟨imgW, 1, 1, 1, ![ptInvalid], 1, 2⟩

/-- `cvRound` of an integer is that integer. -/
theorem cvRound_intCast (n : ℤ) : cvRound (n : ℚ) = n := by
  simp [cvRound, Int.fract_intCast]

/-- The primary projection of point `0` of `cfgW` under the identity pose. -/
theorem proj2d_cfgW_zero : proj2d cfgW 1 0 0 = (1, 1) := by
  have h1 := cvRound_intCast 1
  norm_num at h1
  have h3 : proj3d cfgW 1 0 0 = ![1, 1, 1] := by
    simp [proj3d, camPoint, cfgW, ptValid, Matrix.one_mulVec]
  simp [proj2d, h3, pixelOfProj, h1]

/-- The uncertainty-shifted projection of point `0` of `cfgW` under the
identity pose. -/
theorem proj2dRight_cfgW_zero : proj2dRight cfgW 1 0 0 = (1, 1) := by
  have h1 := cvRound_intCast 1
  norm_num at h1
  have h3 : proj3dRight cfgW 1 0 0 = ![1, 1, 1] := by
    simp [proj3dRight, camPoint, cfgW, ptValid, Matrix.one_mulVec]
  simp [proj2dRight, h3, pixelOfProj, h1]

/-- The primary projection of point `1` of `cfgW` under the identity pose. -/
theorem proj2d_cfgW_one : proj2d cfgW 1 0 1 = (10, 0) := by
  have h10 := cvRound_intCast 10
  have h0 := cvRound_intCast 0
  norm_num at h10 h0
  have h3 : proj3d cfgW 1 0 1 = ![10, 0, 1] := by
    simp [proj3d, camPoint, cfgW, ptInvalid, Matrix.one_mulVec]
  simp [proj2d, h3, pixelOfProj, h10, h0]

/-- The uncertainty-shifted projection of point `1` of `cfgW` under the
identity pose. -/
theorem proj2dRight_cfgW_one : proj2dRight cfgW 1 0 1 = (10, 0) := by
  have h10 := cvRound_intCast 10
  have h0 := cvRound_intCast 0
  norm_num at h10 h0
  have h3 : proj3dRight cfgW 1 0 1 = ![10, 0, 1] := by
    simp [proj3dRight, camPoint, cfgW, ptInvalid, Matrix.one_mulVec]
  simp [proj2dRight, h3, pixelOfProj, h10, h0]

/-- Point `0` of `cfgW` is valid under the identity pose. -/
theorem valid_cfgW_zero : valid cfgW 1 0 0 = true := by
  simp only [valid, proj2d_cfgW_zero, proj2dRight_cfgW_zero]
  norm_num [cfgW, imgW]

/-- Point `1` of `cfgW` is invalid under the identity pose. -/
theorem valid_cfgW_one : valid cfgW 1 0 1 = false := by
  simp only [valid, proj2d_cfgW_one, proj2dRight_cfgW_one]
  norm_num [cfgW, imgW]

/-- The primary projection of the single point of `cfgAllInv` under the
identity pose. -/
theorem proj2d_cfgAllInv_zero : proj2d cfgAllInv 1 0 0 = (10, 0) := by
  have h10 := cvRound_intCast 10
  have h0 := cvRound_intCast 0
  norm_num at h10 h0
  have h3 : proj3d cfgAllInv 1 0 0 = ![10, 0, 1] := by
    simp [proj3d, camPoint, cfgAllInv, ptInvalid, Matrix.one_mulVec]
  simp [proj2d, h3, pixelOfProj, h10, h0]

/-- The uncertainty-shifted projection of the single point of `cfgAllInv`
under the identity pose. -/
theorem proj2dRight_cfgAllInv_zero : proj2dRight cfgAllInv 1 0 0 = (10, 0) := by
  have h10 := cvRound_intCast 10
  have h0 := cvRound_intCast 0
  norm_num at h10 h0
  have h3 : proj3dRight cfgAllInv 1 0 0 = ![10, 0, 1] := by
    simp [proj3dRight, camPoint, cfgAllInv, ptInvalid, Matrix.one_mulVec]
  simp [proj2dRight, h3, pixelOfProj, h10, h0]

/-- The single point of `cfgAllInv` is invalid under the identity pose. -/
theorem valid_cfgAllInv_zero : valid cfgAllInv 1 0 0 = false := by
  simp only [valid, proj2d_cfgAllInv_zero, proj2dRight_cfgAllInv_zero]
  norm_num [cfgAllInv, imgW]

/-- Witness for C4 at a concrete configuration: point `1` is invalid, point
`0` is valid, and the emitted residual of point `1` is the mean over the
valid set. -/
theorem invalid_residual_is_valid_mean_witness :
    valid cfgW 1 0 (1 : Fin 2) = false ∧
    residualRow cfgW 1 0 (fun _ _ => 0) (fun _ _ => 0) 1 =
      (∑ j ∈ validSet cfgW 1 0, regRes cfgW 1 0 (fun _ _ => 0) (fun _ _ => 0) j) /
        ((validSet cfgW 1 0).card : ℝ) :=
  ⟨valid_cfgW_one,
    invalid_residual_is_valid_mean 2 cfgW 1 0 (fun _ _ => 0) (fun _ _ => 0) 1
      ⟨0, valid_cfgW_zero⟩ valid_cfgW_one⟩

/-- Witness for C10 at a concrete all-invalid configuration. -/
theorem all_invalid_succeeds_with_zero_witness :
    (∀ i, valid cfgAllInv 1 0 i = false) ∧
    ∀ i, residualRow cfgAllInv 1 0 (fun _ _ => 0) (fun _ _ => 0) i = 0 :=
  ⟨fun i => by fin_cases i; exact valid_cfgAllInv_zero,
    (all_invalid_succeeds_with_zero 1 cfgAllInv 1 0
      (fun _ _ => 0) (fun _ _ => 0)
      (fun i => by fin_cases i; exact valid_cfgAllInv_zero)).2.2⟩

/-- `RotationAngle`: `acos((trace(R) - 1) / 2)`. -/
noncomputable def RotationAngle (R : Matrix (Fin 3) (Fin 3) ℚ) : ℝ :=
  Real.arccos (((Matrix.trace R - 1 : ℚ) : ℝ) / 2)

/-- `TranslationDist`: the L2 norm `cv::norm(t)` of the translation column. -/
noncomputable def TranslationDist (t : Fin 3 → ℚ) : ℝ :=
  Real.sqrt (∑ i : Fin 3, ((t i : ℚ) : ℝ) ^ 2)

/-- One entry write `M.at<float>(r, c) = x` on a 4 × 4 matrix. -/
def updEntry (M : Matrix (Fin 4) (Fin 4) ℚ) (r c : Fin 4) (x : ℚ) :
    Matrix (Fin 4) (Fin 4) ℚ :=
  fun i j => if i = r ∧ j = c then x else M i j

/-- `Rrel.copyTo(Trel.rowRange(0, 3).colRange(0, 3))`: overwrite the top-left
3 × 3 block. -/
def copyRotBlock (M : Matrix (Fin 4) (Fin 4) ℚ)
    (R : Matrix (Fin 3) (Fin 3) ℚ) : Matrix (Fin 4) (Fin 4) ℚ :=
  fun i j =>
    if h : (i : ℕ) < 3 ∧ (j : ℕ) < 3 then R ⟨i, h.1⟩ ⟨j, h.2⟩ else M i j

/-- `Trel` as `EstimateCameraPose` builds it: `Mat::zeros(4, 4)`, copy the
Rodrigues rotation into the top-left block, write the three translation
entries into column 3, then set the bottom-right corner to 1. -/
def Trel (R : Matrix (Fin 3) (Fin 3) ℚ) (t : Fin 3 → ℚ) :
    Matrix (Fin 4) (Fin 4) ℚ :=
  updEntry
    (updEntry (updEntry (updEntry (copyRotBlock 0 R) 0 3 (t 0)) 1 3 (t 1))
      2 3 (t 2))
    3 3 1

/-- The world pose `EstimateCameraPose` writes:
`Tcw = Trel * pRefKF->GetPose()`. -/
def TcwOf (cfg : Config N) (R : Matrix (Fin 3) (Fin 3) ℚ) (t : Fin 3 → ℚ) :
    Matrix (Fin 4) (Fin 4) ℚ :=
  Trel R t * cfg.worldPose

/-- Row `i` of the driver's own `proj3d` in the `validRatio` block: the code
computes `(depth·homo)·mInvKᵀ·Rrelᵀ + tᵀ` and then multiplies the row vector
by `K` itself (not `Kᵀ`), which in column form is `Kᵀ · (Rrel·(depth·(mInvK·homo)) + t)`;
note it uses the keyframe's `mInvK`. -/
def driverProj3d (cfg : Config N) (R : Matrix (Fin 3) (Fin 3) ℚ)
    (t : Fin 3 → ℚ) (i : Fin N) : Fin 3 → ℚ :=
  cfg.K.transpose.mulVec
    (R.mulVec ((cfg.highGradPt i).depth • cfg.mInvK.mulVec (cfg.highGradPt i).homo) + t)

/-- Row `i` of the driver's integer `proj2d` in the `validRatio` block. -/
def driverProj2d (cfg : Config N) (R : Matrix (Fin 3) (Fin 3) ℚ)
    (t : Fin 3 → ℚ) (i : Fin N) : ℤ × ℤ :=
  pixelOfProj (driverProj3d cfg R t i)

/-- The driver's `valid` mask in the `validRatio` block: the code compares
the first pixel coordinate against `imColor.rows` and the second against
`imColor.cols`. -/
def driverValid (cfg : Config N) (R : Matrix (Fin 3) (Fin 3) ℚ)
    (t : Fin 3 → ℚ) (i : Fin N) : Bool :=
  decide (0 ≤ (driverProj2d cfg R t i).1) &&
  decide ((driverProj2d cfg R t i).1 < cfg.imColor.rows) &&
  decide (0 ≤ (driverProj2d cfg R t i).2) &&
  decide ((driverProj2d cfg R t i).2 < cfg.imColor.cols)

/-- `*validRatio = sum(valid)[0] / 255 / valid.rows`: the fraction of mask
entries that are set. -/
def validRatio (cfg : Config N) (R : Matrix (Fin 3) (Fin 3) ℚ)
    (t : Fin 3 → ℚ) : ℚ :=
  ((Finset.univ.filter (fun i => driverValid cfg R t i = true)).card : ℚ) / N

/-- Bounds test of an integer pixel against `[0, width) × [0, height)`. -/
def inImageBounds (img : Image) (p : ℤ × ℤ) : Bool :=
  decide (0 ≤ p.1) && decide (p.1 < img.cols) &&
  decide (0 ≤ p.2) && decide (p.2 < img.rows)

/-- Modelled from the spec: `validRatio` as the specification describes it —
the fraction of reference points whose reprojection under the converged
relative pose (pinhole projection `K·(R·(depth·(mInvK·homo)) + t)`) falls
inside the image bounds `[0, width) × [0, height)`. -/
def specValidRatio (cfg : Config N) (R : Matrix (Fin 3) (Fin 3) ℚ)
    (t : Fin 3 → ℚ) : ℚ :=
  ((Finset.univ.filter (fun i : Fin N =>
      inImageBounds cfg.imColor
        (pixelOfProj (cfg.K.mulVec
          (R.mulVec ((cfg.highGradPt i).depth •
            cfg.mInvK.mulVec (cfg.highGradPt i).homo) + t))) = true)).card : ℚ) / N

/-- C5: the driver composes the returned world pose as
`Tcw = Trel · worldPose`, where `Trel` carries the solved rotation in its
top-left 3 × 3 block, the solved translation in rows 0–2 of column 3, and
bottom row `[0, 0, 0, 1]`. -/
theorem tcw_is_trel_times_world_pose (N : ℕ) (cfg : Config N)
    (R : Matrix (Fin 3) (Fin 3) ℚ) (t : Fin 3 → ℚ) :
    TcwOf cfg R t = Trel R t * cfg.worldPose ∧
    ∀ i j : Fin 4, Trel R t i j =
      if h : (i : ℕ) < 3 ∧ (j : ℕ) < 3 then R ⟨i, h.1⟩ ⟨j, h.2⟩
      else if h2 : (i : ℕ) < 3 ∧ (j : ℕ) = 3 then t ⟨i, h2.1⟩
      else if (i : ℕ) = 3 ∧ (j : ℕ) = 3 then 1 else 0 := by
  refine ⟨rfl, fun i j => ?_⟩
  fin_cases i <;> fin_cases j <;> rfl

/-- The 2 × 1 image of the C1 counterexample: width 2, height 1. -/
def imgC1 : Image := ⟨2, 1, fun _ _ _ => 0⟩

/-- A reference point reprojecting (identity calibration, identity pose) to
pixel `(1, 0)`: inside the 2 × 1 image bounds. -/
def ptC1 : RefPoint := ⟨![1, 0, 1], 1, 0, ![0, 0, 0]⟩

/-- The C1 configuration: identity calibration, one point, 2 × 1 image. -/
def cfgC1 : Config 1 := ⟨imgC1, 1, 1, 1, ![ptC1], 1, 2⟩

/-- The driver's reprojection of the C1 point under the identity pose. -/
theorem driverProj2d_cfgC1_zero : driverProj2d cfgC1 1 0 0 = (1, 0) := by
  have h1 := cvRound_intCast 1
  have h0 := cvRound_intCast 0
  norm_num at h1 h0
  have h3 : driverProj3d cfgC1 1 0 0 = ![1, 0, 1] := by
    simp [driverProj3d, cfgC1, ptC1, Matrix.one_mulVec, Matrix.transpose_one]
  simp [driverProj2d, h3, pixelOfProj, h1, h0]

/-- C1 fails on the code: the driver's `validRatio` block compares the `u`
pixel coordinate against the image height and `v` against the width, so at a
2 × 1 image whose single reference point reprojects (under the identity
converged pose) to the in-bounds pixel `(1, 0)`, the code reports
`validRatio = 0` while the claimed fraction — and the claimed identity-pose
value — is `1`. -/
theorem validRatio_swaps_width_and_height :
    validRatio cfgC1 1 0 = 0 ∧ specValidRatio cfgC1 1 0 = 1 := by
  constructor
  · have hdv : driverValid cfgC1 1 0 0 = false := by
      simp only [driverValid, driverProj2d_cfgC1_zero]
      norm_num [cfgC1, imgC1]
    have hfilter :
        (Finset.univ.filter (fun i : Fin 1 => driverValid cfgC1 1 0 i = true)) = ∅ := by
      apply Finset.eq_empty_of_forall_not_mem
      intro j hj
      fin_cases j
      simp [hdv] at hj
    simp only [validRatio]
    rw [hfilter]
    simp
  · have hin :
        inImageBounds cfgC1.imColor
          (pixelOfProj (cfgC1.K.mulVec
            (Matrix.mulVec 1 ((cfgC1.highGradPt 0).depth •
              cfgC1.mInvK.mulVec (cfgC1.highGradPt 0).homo) + 0))) = true := by
      have h1 := cvRound_intCast 1
      have h0 := cvRound_intCast 0
      norm_num at h1 h0
      have h3 : cfgC1.K.mulVec
          (Matrix.mulVec 1 ((cfgC1.highGradPt 0).depth •
            cfgC1.mInvK.mulVec (cfgC1.highGradPt 0).homo) + 0) = ![1, 0, 1] := by
        simp [cfgC1, ptC1, Matrix.one_mulVec]
      rw [h3]
      norm_num [inImageBounds, pixelOfProj, h1, h0, cfgC1, imgC1]
    have hfilter :
        (Finset.univ.filter (fun i : Fin 1 =>
          inImageBounds cfgC1.imColor
            (pixelOfProj (cfgC1.K.mulVec
              (Matrix.mulVec 1 ((cfgC1.highGradPt i).depth •
                cfgC1.mInvK.mulVec (cfgC1.highGradPt i).homo) + 0))) = true)) =
          Finset.univ := by
      apply Finset.eq_univ_of_forall
      intro j
      fin_cases j
      simpa using hin
    simp only [specValidRatio]
    rw [hfilter]
    simp

/-- The memory a `CostFunctor::operator()` call touches: the bound inputs
and the output residual buffer plus the boolean return value. -/
structure EvalIO (N : ℕ) where
  cfg : Config N
  residualOut : Fin N → ℝ
  retOut : Bool

/-- One `CostFunctor::operator()` call as a state transformer: on an
unsupported scalar type it only returns `false`; otherwise it fills the
residual buffer and returns `true`.  No input field is ever assigned. -/
noncomputable def runCostFunctor (s : EvalIO N) (ty : ScalarType)
    (R : Matrix (Fin 3) (Fin 3) ℚ) (t : Fin 3 → ℚ)
    (u v : Fin N → Fin 3 → ℕ) : EvalIO N :=
  match costFunctorEval ty s.cfg R t u v with
  | none => { s with retOut := false }
  | some r => { s with residualOut := r, retOut := true }

/-- The memory an `EstimateCameraPose` call touches: the inputs and the
output pose `Tcw`, the three optional diagnostics and the returned cost. -/
structure DriverIO (N : ℕ) where
  cfg : Config N
  TcwOut : Matrix (Fin 4) (Fin 4) ℚ
  rotAngleOut : ℝ
  transDistOut : ℝ
  validRatioOut : ℚ
  costOut : ℝ

/-- The post-solve tail of `EstimateCameraPose` (lines 200–232) as a state
transformer: write `Tcw`, the rotation angle, the translation distance and
the valid ratio, and return `summary.final_cost / TRACKING_NUM_PT`.  `R`, `t`
are the solved relative rotation and translation, `finalCost` the
optimizer's final cost.  No input field is ever assigned. -/
noncomputable def runEstimateCameraPose (s : DriverIO N)
    (R : Matrix (Fin 3) (Fin 3) ℚ) (t : Fin 3 → ℚ)
    (finalCost : ℝ) : DriverIO N :=
  let s1 : DriverIO N := { s with TcwOut := TcwOf s.cfg R t }
  let s2 : DriverIO N := { s1 with rotAngleOut := RotationAngle R }
  let s3 : DriverIO N := { s2 with transDistOut := TranslationDist t }
  let s4 : DriverIO N := { s3 with validRatioOut := validRatio s.cfg R t }
  { s4 with costOut := finalCost / (N : ℝ) }

/-- C9: neither the residual evaluation nor the driver mutates its inputs:
after a `CostFunctor::operator()` call and after the driver tail, the bound
configuration (new image, `K`, `invK`, the keyframe's point arrays, world
pose and noise constant) is unchanged; only the outputs are written. -/
theorem inputs_never_mutated (N : ℕ) (e : EvalIO N) (s : DriverIO N)
    (ty : ScalarType) (R : Matrix (Fin 3) (Fin 3) ℚ) (t : Fin 3 → ℚ)
    (u v : Fin N → Fin 3 → ℕ) (finalCost : ℝ) :
    (runCostFunctor e ty R t u v).cfg = e.cfg ∧
    (runEstimateCameraPose s R t finalCost).cfg = s.cfg := by
  constructor
  · cases ty <;> rfl
  · rfl

/-- C3 (amended): for every valid point the emitted residual is
`res / sqrt((resRight - res)^2 + 2 · cameraPixelNoise2)`, where `res` and
`resRight` are the L2 norms of the *zero-saturated* byte differences
(reference colour minus sampled colour, clamped at 0 channel-wise by the
`CV_8U` subtraction) at the primary and uncertainty-shifted pixels. -/
theorem valid_residual_formula (N : ℕ) (cfg : Config N)
    (R : Matrix (Fin 3) (Fin 3) ℚ) (t : Fin 3 → ℚ)
    (u v : Fin N → Fin 3 → ℕ) (i : Fin N)
    (h : valid cfg R t i = true) :
    residualRow cfg R t u v i =
      l2SatDiff (cfg.highGradPt i).pixel (pixels cfg R t u i) /
        Real.sqrt
          ((l2SatDiff (cfg.highGradPt i).pixel (pixelsRight cfg R t v i) -
            l2SatDiff (cfg.highGradPt i).pixel (pixels cfg R t u i)) ^ 2 +
            2 * (cfg.cameraPixelNoise2 : ℝ)) := by
  simp [residualRow, h, regRes, varRow, res, resRight]

/-- Witness for C3's amended theorem at a concrete valid configuration. -/
theorem valid_residual_formula_witness :
    valid cfgW 1 0 0 = true ∧
    residualRow cfgW 1 0 (fun _ _ => 0) (fun _ _ => 0) 0 =
      l2SatDiff (cfgW.highGradPt 0).pixel (pixels cfgW 1 0 (fun _ _ => 0) 0) /
        Real.sqrt
          ((l2SatDiff (cfgW.highGradPt 0).pixel
              (pixelsRight cfgW 1 0 (fun _ _ => 0) 0) -
            l2SatDiff (cfgW.highGradPt 0).pixel
              (pixels cfgW 1 0 (fun _ _ => 0) 0)) ^ 2 +
            2 * (cfgW.cameraPixelNoise2 : ℝ)) :=
  ⟨valid_cfgW_zero,
    valid_residual_formula 2 cfgW 1 0 (fun _ _ => 0) (fun _ _ => 0) 0
      valid_cfgW_zero⟩

/-- Modelled from the spec: the plain L2 colour error between the reference
observed colour and a sample, as the specification's words "the L2 color
error against the reference observed color" state it — without the
zero-saturation the code's `CV_8U` subtraction performs. -/
noncomputable def specL2Error (a b : Fin 3 → ℕ) : ℝ :=
  Real.sqrt (∑ k : Fin 3, ((a k : ℝ) - (b k : ℝ)) ^ 2)

/-- The image of the C3 counterexample: every pixel has colour `(3, 4, 0)`,
brighter than the reference colour in every channel. -/
def imgC3 : Image := ⟨4, 4, fun _ _ => ![3, 4, 0]⟩

/-- The C3 counterexample point: reference colour `(0, 0, 0)`, projecting to
pixel `(1, 1)` under identity calibration and identity pose. -/
def ptC3 : RefPoint := ⟨![1, 1, 1], 1, 0, ![0, 0, 0]⟩

/-- The C3 counterexample configuration. -/
def cfgC3 : Config 1 := ⟨imgC3, 1, 1, 1, ![ptC3], 1, 2⟩

/-- The primary projection of the C3 point under the identity pose. -/
theorem proj2d_cfgC3_zero : proj2d cfgC3 1 0 0 = (1, 1) := by
  have h1 := cvRound_intCast 1
  norm_num at h1
  have h3 : proj3d cfgC3 1 0 0 = ![1, 1, 1] := by
    simp [proj3d, camPoint, cfgC3, ptC3, Matrix.one_mulVec]
  simp [proj2d, h3, pixelOfProj, h1]

/-- The uncertainty-shifted projection of the C3 point under the identity
pose. -/
theorem proj2dRight_cfgC3_zero : proj2dRight cfgC3 1 0 0 = (1, 1) := by
  have h1 := cvRound_intCast 1
  norm_num at h1
  have h3 : proj3dRight cfgC3 1 0 0 = ![1, 1, 1] := by
    simp [proj3dRight, camPoint, cfgC3, ptC3, Matrix.one_mulVec]
  simp [proj2dRight, h3, pixelOfProj, h1]

/-- The C3 point is valid under the identity pose. -/
theorem valid_cfgC3_zero : valid cfgC3 1 0 0 = true := by
  simp only [valid, proj2d_cfgC3_zero, proj2dRight_cfgC3_zero]
  norm_num [cfgC3, imgC3]

/-- C3 as literally stated fails on the code: at a point whose sampled
colour is brighter than the reference colour in every channel, the `CV_8U`
subtraction saturates to zero, the emitted residual is `0`, and the claimed
formula with true L2 colour errors evaluates to `5/2 ≠ 0`. -/
theorem residual_differs_from_spec_l2_formula :
    valid cfgC3 1 0 0 = true ∧
    residualRow cfgC3 1 0 (fun _ _ => 0) (fun _ _ => 0) 0 ≠
      specL2Error (cfgC3.highGradPt 0).pixel (pixels cfgC3 1 0 (fun _ _ => 0) 0) /
        Real.sqrt
          ((specL2Error (cfgC3.highGradPt 0).pixel
              (pixelsRight cfgC3 1 0 (fun _ _ => 0) 0) -
            specL2Error (cfgC3.highGradPt 0).pixel
              (pixels cfgC3 1 0 (fun _ _ => 0) 0)) ^ 2 +
            2 * (cfgC3.cameraPixelNoise2 : ℝ)) := by
  have hpix : pixels cfgC3 1 0 (fun _ _ => 0) 0 = ![3, 4, 0] := by
    simp only [pixels, valid_cfgC3_zero]
    simp [cfgC3, imgC3]
  have hpixR : pixelsRight cfgC3 1 0 (fun _ _ => 0) 0 = ![3, 4, 0] := by
    simp only [pixelsRight, valid_cfgC3_zero]
    simp [cfgC3, imgC3]
  have hcolor : (cfgC3.highGradPt 0).pixel = ![0, 0, 0] := by
    simp [cfgC3, ptC3]
  have hsat : l2SatDiff ![0, 0, 0] ![3, 4, 0] = 0 := by
    simp [l2SatDiff, Fin.sum_univ_three]
  have hspec : specL2Error ![0, 0, 0] ![3, 4, 0] = 5 := by
    have h25 : (∑ k : Fin 3,
        (((![0, 0, 0] : Fin 3 → ℕ) k : ℝ) - ((![3, 4, 0] : Fin 3 → ℕ) k : ℝ)) ^ 2) =
        25 := by
      simp [Fin.sum_univ_three]
      norm_num
    rw [specL2Error, h25, show (25 : ℝ) = 5 ^ 2 by norm_num,
      Real.sqrt_sq (by norm_num : (0 : ℝ) ≤ 5)]
  have hlhs : residualRow cfgC3 1 0 (fun _ _ => 0) (fun _ _ => 0) 0 = 0 := by
    simp [residualRow, valid_cfgC3_zero, regRes, res, hpix, hcolor, hsat]
  have hrhs :
      specL2Error (cfgC3.highGradPt 0).pixel (pixels cfgC3 1 0 (fun _ _ => 0) 0) /
        Real.sqrt
          ((specL2Error (cfgC3.highGradPt 0).pixel
              (pixelsRight cfgC3 1 0 (fun _ _ => 0) 0) -
            specL2Error (cfgC3.highGradPt 0).pixel
              (pixels cfgC3 1 0 (fun _ _ => 0) 0)) ^ 2 +
            2 * (cfgC3.cameraPixelNoise2 : ℝ)) = 5 / 2 := by
    rw [hpix, hpixR, hcolor, hspec]
    have hc : (cfgC3.cameraPixelNoise2 : ℝ) = 2 := by
      norm_num [cfgC3]
    rw [hc]
    rw [show ((5 : ℝ) - 5) ^ 2 + 2 * 2 = 2 ^ 2 by norm_num,
      Real.sqrt_sq (by norm_num : (0 : ℝ) ≤ 2)]
  refine ⟨valid_cfgC3_zero, ?_⟩
  rw [hlhs, hrhs]
  norm_num

/-- The image locations the sampling loop reads (`imColor.at<Vec3b>` calls):
for every row whose `valid` mask is set, the primary pixel and the
uncertainty-shifted pixel. -/
def accessedLocations (cfg : Config N) (R : Matrix (Fin 3) (Fin 3) ℚ)
    (t : Fin 3 → ℚ) : List (ℤ × ℤ) :=
  ((List.finRange N).filter (fun i => valid cfg R t i)).map (proj2d cfg R t) ++
  ((List.finRange N).filter (fun i => valid cfg R t i)).map (proj2dRight cfg R t)

/-- C7: the new image is sampled only at pixels of points whose validity
mask is set, and every such location lies inside
`[0, width) × [0, height)` — no out-of-bounds image access occurs, for any
candidate pose. -/
theorem sampled_locations_in_bounds (N : ℕ) (cfg : Config N)
    (R : Matrix (Fin 3) (Fin 3) ℚ) (t : Fin 3 → ℚ) (p : ℤ × ℤ)
    (hp : p ∈ accessedLocations cfg R t) :
    0 ≤ p.1 ∧ p.1 < cfg.imColor.cols ∧ 0 ≤ p.2 ∧ p.2 < cfg.imColor.rows := by
  simp only [accessedLocations, List.mem_append, List.mem_map,
    List.mem_filter] at hp
  rcases hp with ⟨i, ⟨-, hvi⟩, rfl⟩ | ⟨i, ⟨-, hvi⟩, rfl⟩ <;>
    · simp only [valid, Bool.and_eq_true, decide_eq_true_iff, and_assoc] at hvi
      obtain ⟨h1, h2, h3, h4, h5, h6, h7, h8⟩ := hvi
      first
        | exact ⟨h1, h2, h3, h4⟩
        | exact ⟨h5, h6, h7, h8⟩

/-- Witness for C7: the pixel `(1, 1)` is an accessed location of `cfgW`
under the identity pose, and it lies inside the image bounds. -/
theorem sampled_locations_in_bounds_witness :
    ((1, 1) : ℤ × ℤ) ∈ accessedLocations cfgW 1 0 ∧
    (0 ≤ ((1, 1) : ℤ × ℤ).1 ∧ ((1, 1) : ℤ × ℤ).1 < cfgW.imColor.cols ∧
     0 ≤ ((1, 1) : ℤ × ℤ).2 ∧ ((1, 1) : ℤ × ℤ).2 < cfgW.imColor.rows) := by
  have hmem : ((1, 1) : ℤ × ℤ) ∈ accessedLocations cfgW 1 0 := by
    simp only [accessedLocations, List.mem_append]
    left
    simp only [List.mem_map, List.mem_filter]
    exact ⟨0, ⟨List.mem_finRange 0, valid_cfgW_zero⟩, proj2d_cfgW_zero⟩
  exact ⟨hmem, sampled_locations_in_bounds 2 cfgW 1 0 (1, 1) hmem⟩

/-- C8: holding everything else fixed, increasing `cameraPixelNoise2` does
not increase the residuals: every valid point's normalized residual
magnitude is non-increasing, and so is the total sum of squared emitted
residuals. -/
theorem residual_antitone_in_pixel_noise (N : ℕ) (cfg : Config N) (s2' : ℚ)
    (R : Matrix (Fin 3) (Fin 3) ℚ) (t : Fin 3 → ℚ)
    (u v : Fin N → Fin 3 → ℕ)
    (h0 : 0 < cfg.cameraPixelNoise2) (hle : cfg.cameraPixelNoise2 ≤ s2') :
    (∀ i, valid cfg R t i = true →
        |regRes { cfg with cameraPixelNoise2 := s2' } R t u v i| ≤
          |regRes cfg R t u v i|) ∧
    ∑ i, residualRow { cfg with cameraPixelNoise2 := s2' } R t u v i ^ 2 ≤
      ∑ i, residualRow cfg R t u v i ^ 2 := by
  have e3 : ∀ i, valid { cfg with cameraPixelNoise2 := s2' } R t i =
      valid cfg R t i := fun _ => rfl
  have e4 : validSet { cfg with cameraPixelNoise2 := s2' } R t =
      validSet cfg R t := rfl
  have e5 : ∀ i, regRes { cfg with cameraPixelNoise2 := s2' } R t u v i =
      res cfg R t u i /
        Real.sqrt ((resRight cfg R t v i - res cfg R t u i) ^ 2 +
          2 * (s2' : ℝ)) := fun _ => rfl
  have e6 : ∀ i, regRes cfg R t u v i =
      res cfg R t u i /
        Real.sqrt ((resRight cfg R t v i - res cfg R t u i) ^ 2 +
          2 * (cfg.cameraPixelNoise2 : ℝ)) := fun _ => rfl
  have hc0 : (0 : ℝ) < (cfg.cameraPixelNoise2 : ℝ) := by exact_mod_cast h0
  have hcle : ((cfg.cameraPixelNoise2 : ℚ) : ℝ) ≤ ((s2' : ℚ) : ℝ) := by
    exact_mod_cast hle
  have hvpos : ∀ i, (0 : ℝ) <
      Real.sqrt ((resRight cfg R t v i - res cfg R t u i) ^ 2 +
        2 * (cfg.cameraPixelNoise2 : ℝ)) := fun i =>
    Real.sqrt_pos.mpr
      (add_pos_of_nonneg_of_pos (sq_nonneg _) (by linarith))
  have hpt : ∀ i, regRes { cfg with cameraPixelNoise2 := s2' } R t u v i ≤
      regRes cfg R t u v i := by
    intro i
    rw [e5 i, e6 i]
    exact div_le_div_of_nonneg_left (Real.sqrt_nonneg _) (hvpos i)
      (Real.sqrt_le_sqrt (by linarith))
  have hnn2 : ∀ i, 0 ≤ regRes { cfg with cameraPixelNoise2 := s2' } R t u v i := by
    intro i
    rw [e5 i]
    exact div_nonneg (Real.sqrt_nonneg _) (Real.sqrt_nonneg _)
  have hnn1 : ∀ i, 0 ≤ regRes cfg R t u v i := by
    intro i
    rw [e6 i]
    exact div_nonneg (Real.sqrt_nonneg _) (Real.sqrt_nonneg _)
  have hmean2nn : 0 ≤ meanRes { cfg with cameraPixelNoise2 := s2' } R t u v := by
    rw [meanRes, e4]
    refine mul_nonneg (Finset.sum_nonneg fun i _ => hnn2 i) ?_
    split
    · exact le_refl 0
    · positivity
  have hmean : meanRes { cfg with cameraPixelNoise2 := s2' } R t u v ≤
      meanRes cfg R t u v := by
    rw [meanRes, meanRes, e4]
    refine mul_le_mul_of_nonneg_right
      (Finset.sum_le_sum fun i _ => hpt i) ?_
    split
    · exact le_refl 0
    · positivity
  refine ⟨fun i _ => ?_, ?_⟩
  · rw [abs_of_nonneg (hnn2 i), abs_of_nonneg (hnn1 i)]
    exact hpt i
  · refine Finset.sum_le_sum fun i _ => ?_
    by_cases hv : valid cfg R t i = true
    · simp only [residualRow, e3, hv, if_true]
      exact pow_le_pow_left₀ (hnn2 i) (hpt i) 2
    · have hv' : valid cfg R t i = false := by
        simpa using hv
      simp only [residualRow, e3, hv', Bool.false_eq_true, if_false]
      exact pow_le_pow_left₀ hmean2nn hmean 2

/-- Witness for C8 at a concrete configuration: raising the noise variance
of `cfgW` from 2 to 3 does not increase the valid point's normalized
residual magnitude nor the total squared cost. -/
theorem residual_antitone_in_pixel_noise_witness :
    0 < cfgW.cameraPixelNoise2 ∧ cfgW.cameraPixelNoise2 ≤ 3 ∧
    |regRes { cfgW with cameraPixelNoise2 := 3 } 1 0
        (fun _ _ => 0) (fun _ _ => 0) 0| ≤
      |regRes cfgW 1 0 (fun _ _ => 0) (fun _ _ => 0) 0| ∧
    ∑ i, residualRow { cfgW with cameraPixelNoise2 := 3 } 1 0
        (fun _ _ => 0) (fun _ _ => 0) i ^ 2 ≤
      ∑ i, residualRow cfgW 1 0 (fun _ _ => 0) (fun _ _ => 0) i ^ 2 :=
  ⟨by norm_num [cfgW], by norm_num [cfgW],
    (residual_antitone_in_pixel_noise 2 cfgW 3 1 0
      (fun _ _ => 0) (fun _ _ => 0)
      (by norm_num [cfgW]) (by norm_num [cfgW])).1 0 valid_cfgW_zero,
    (residual_antitone_in_pixel_noise 2 cfgW 3 1 0
      (fun _ _ => 0) (fun _ _ => 0)
      (by norm_num [cfgW]) (by norm_num [cfgW])).2⟩

end CnnSlam
